import Mathlib

/-!
Shallow embedding of `include/linux/refcount.h` (class-based reference
counting).  C strings are lists of nonzero bytes (`List Nat`); the fixed
`char key[REFCOUNT_KEY_MAX]` buffer is a byte list produced by `strncpy`.
The hlist of classes is a `List`, head = most recently added
(`hlist_add_head`).  A class pointer is modelled as a stable handle: the
index of the class counted from the END of the list (insertion order), so
prepending new classes never invalidates existing handles.  `atomic_t`
counters are modelled as `Int` (no claim concerns 32-bit overflow).
`BUG_ON` is modelled by returning `none` (a fatal, unrecoverable stop);
the `refcount_warn` diagnostic is modelled as an `Option (List Nat)`
carrying the reported class key.
-/

def REFCOUNT_KEY_MAX : Nat := 20

/-- C `strncpy(dst, src, n)` into a fresh `n`-byte buffer: copies at most
`n` bytes of `src` and zero-pads the rest (no pad at all when
`src.length ≥ n`, hence possibly no terminator). -/
def strncpy (src : List Nat) (n : Nat) : List Nat :=
  src.take n ++ List.replicate (n - src.length) 0

/-- C `strncmp(a, b, n)`: byte-wise compare, stopping at the first
difference, at a NUL byte, or after `n` bytes.  Reading past the end of a
list yields the terminating NUL (byte 0). -/
def strncmp : List Nat → List Nat → Nat → Int
  | _, _, 0 => 0
  | a, b, n + 1 =>
    let ca : Int := (a.headD 0 : Nat)
    let cb : Int := (b.headD 0 : Nat)
    if ca ≠ cb then ca - cb
    else if ca = 0 then 0
    else strncmp a.tail b.tail n

/-- `struct refcount_class_t`: the key buffer and the per-class `atomic_t
ref`.  The `global` back-reference is the enclosing `refcount_t` in this
embedding (a class is always addressed through its owner), and `action` is
unused in the source (`FIXME: Action is ignored by now`). -/
structure refcount_class_t where
  key : List Nat
  ref : Int
deriving DecidableEq, Repr

/-- `struct refcount_t`: the global `atomic_t ref` and the hlist `table`
of classes, head = most recently added. -/
structure refcount_t where
  ref : Int
  table : List refcount_class_t
deriving DecidableEq, Repr

/-- `refcount_get()`: fresh refcount, `ref = 0`, empty table. -/
def refcount_get : refcount_t := { ref := 0, table := [] }

/-- `refcount_class_init(parent, key)`: fresh class, `ref = 0`, key copied
with `strncpy(rcc->key, key, REFCOUNT_KEY_MAX)`; `global = parent` is the
enclosing refcount in this embedding. -/
def refcount_class_init (key : List Nat) : refcount_class_t :=
  { key := strncpy key REFCOUNT_KEY_MAX, ref := 0 }

/-- `hlist_for_each_entry` search: index (from the head) of the first
element satisfying `p`. -/
def hlistFind (p : refcount_class_t → Bool) : List refcount_class_t → Option Nat
  | [] => none
  | c :: rest => if p c then some 0 else (hlistFind p rest).map (· + 1)

/-- Dereference a class handle (index counted from the end of the hlist,
i.e. in insertion order). -/
def getC (rc : refcount_t) (h : Nat) : Option refcount_class_t :=
  if h < rc.table.length then rc.table[rc.table.length - 1 - h]? else none

/-- Store back through a class handle. -/
def setC (rc : refcount_t) (h : Nat) (c : refcount_class_t) : refcount_t :=
  { rc with table := rc.table.set (rc.table.length - 1 - h) c }

/-- `refcount_class_get(rc, key)`: scan the hlist for a key matching up to
`REFCOUNT_KEY_MAX` bytes; if found return that class, otherwise init a
new class and `hlist_add_head` it.  Returns the new state and the handle
of the returned class. -/
def refcount_class_get (rc : refcount_t) (key : List Nat) : refcount_t × Nat :=
  match hlistFind (fun c => strncmp c.key key REFCOUNT_KEY_MAX == 0) rc.table with
  | some i => (rc, rc.table.length - 1 - i)
  | none =>
    ({ rc with table := refcount_class_init key :: rc.table }, rc.table.length)

/-- `refcount_read(rc)`. -/
def refcount_read (rc : refcount_t) : Int := rc.ref

/-- `refcount_class_read(rcc)` through a handle. -/
def refcount_class_read (rc : refcount_t) (h : Nat) : Option Int :=
  (getC rc h).map (·.ref)

/-- `refcount_inc(rcc)`: `atomic_inc(&rcc->ref)` then
`atomic_inc(&rcc->global->ref)`. -/
def refcount_inc (rc : refcount_t) (h : Nat) : refcount_t :=
  match getC rc h with
  | none => rc
  | some c => { setC rc h { c with ref := c.ref + 1 } with ref := rc.ref + 1 }

/-- `refcount_add(source, dest)`: `atomic_add` of `source` to the class
and then to the global counter. -/
def refcount_add (n : Int) (rc : refcount_t) (h : Nat) : refcount_t :=
  match getC rc h with
  | none => rc
  | some c => { setC rc h { c with ref := c.ref + n } with ref := rc.ref + n }

/-- `refcount_dec(rcc)`: `atomic_dec(&rcc->ref)`; if the class count is
now negative, `refcount_warn(rcc->key)` and return without touching the
global counter (the warning is the `some key` component); otherwise
`BUG_ON(refcount_read(rcc->global) <= 0)` (modelled as `none`) and
`atomic_dec` the global counter. -/
def refcount_dec (rc : refcount_t) (h : Nat) :
    Option (refcount_t × Option (List Nat)) :=
  match getC rc h with
  | none => none
  | some c =>
    let c' := { c with ref := c.ref - 1 }
    let rc1 := setC rc h c'
    if c'.ref < 0 then some (rc1, some c'.key)
    else if rc1.ref ≤ 0 then none
    else some ({ rc1 with ref := rc1.ref - 1 }, none)

/-- `refcount_dec_and_test(rcc)`: `refcount_dec(rcc)` then
`refcount_read(rcc->global) == 0`. -/
def refcount_dec_and_test (rc : refcount_t) (h : Nat) :
    Option (refcount_t × Option (List Nat) × Bool) :=
  match refcount_dec rc h with
  | none => none
  | some (rc', w) => some (rc', w, refcount_read rc' == 0)

/-- One externally invocable operation on a refcount. -/
inductive Op where
  | classGet (key : List Nat)
  | inc (h : Nat)
  | add (n : Int) (h : Nat)
  | dec (h : Nat)
  | decTest (h : Nat)
deriving DecidableEq, Repr

/-- A single operation step: resulting state plus the number of imbalance
diagnostics emitted (0 or 1).  `none` models a fatal `BUG_ON` or an
invalid class handle (undefined behaviour in C). -/
def step (rc : refcount_t) : Op → Option (refcount_t × Nat)
  | .classGet k => some ((refcount_class_get rc k).1, 0)
  | .inc h => if h < rc.table.length then some (refcount_inc rc h, 0) else none
  | .add n h => if h < rc.table.length then some (refcount_add n rc h, 0) else none
  | .dec h => (refcount_dec rc h).map (fun p => (p.1, if p.2.isSome then 1 else 0))
  | .decTest h =>
    (refcount_dec_and_test rc h).map (fun p => (p.1, if p.2.1.isSome then 1 else 0))

/-- Run a sequence of operations, accumulating the diagnostic count. -/
def run (rc : refcount_t) : List Op → Option (refcount_t × Nat)
  | [] => some (rc, 0)
  | op :: ops =>
    match step rc op with
    | none => none
    | some (rc', w) =>
      match run rc' ops with
      | none => none
      | some (rc'', w') => some (rc'', w + w')

/-- The delta an operation applies to the reference count. -/
def Op.delta : Op → Int
  | .classGet _ => 0
  | .inc _ => 1
  | .add n _ => n
  | .dec _ => -1
  | .decTest _ => -1

/-- Net sum of deltas of a sequence. -/
def netDelta (ops : List Op) : Int := (ops.map Op.delta).sum

/-- An `add` carries a non-negative delta (the documented convention);
every other operation is unconstrained. -/
def Op.addNonneg : Op → Prop
  | .add n _ => 0 ≤ n
  | _ => True

/-- A valid C key string: a list of nonzero bytes (the NUL terminator is
implicit past the end). -/
def validKey (k : List Nat) : Prop := ∀ b ∈ k, b ≠ 0

instance (k : List Nat) : Decidable (validKey k) :=
  List.decidableBAll (fun b => b ≠ 0) k

instance (op : Op) : Decidable op.addNonneg := by
  cases op <;> simp only [Op.addNonneg] <;> infer_instance

/-- An operation that is an increment, a decrement, or a class lookup
(the operations quantified over by the net-delta property). -/
def Op.isIncDecGet : Op → Bool
  | .classGet _ => true
  | .inc _ => true
  | .dec _ => true
  | _ => false

/-! ### Concrete fixtures used by witness theorems -/

def kA : List Nat := [65]

def kB : List Nat := [66]

/-- Two long keys (21 bytes) agreeing on their first 20 bytes. -/
def kL1 : List Nat := List.replicate REFCOUNT_KEY_MAX 7 ++ [9]

def kL2 : List Nat := List.replicate REFCOUNT_KEY_MAX 7 ++ [8]

def cA : refcount_class_t := { key := strncpy kA REFCOUNT_KEY_MAX, ref := 1 }

def cB : refcount_class_t := { key := strncpy kB REFCOUNT_KEY_MAX, ref := 0 }

/-- Global 1; class `cA` at handle 0, class `cB` at handle 1. -/
def rcW : refcount_t := { ref := 1, table := [cB, cA] }

/-- Global 0; class `cB` (count 0) at handle 0. -/
def rcZ : refcount_t := { ref := 0, table := [cB] }

/-- Global 1; class `cA` (count 1) at handle 0. -/
def rcT : refcount_t := { ref := 1, table := [cA] }

def opsW : List Op := [.classGet kA, .inc 0, .add 1 0, .dec 0, .decTest 0]

def rcWend : refcount_t :=
  { ref := 0, table := [{ key := strncpy kA REFCOUNT_KEY_MAX, ref := 0 }] }

def opsD : List Op :=
  [.classGet kA, .inc 0, .inc 0, .classGet kB, .inc 1, .dec 0]

def rcDend : refcount_t :=
  { ref := 2, table := [{ key := strncpy kB REFCOUNT_KEY_MAX, ref := 1 },
    { key := strncpy kA REFCOUNT_KEY_MAX, ref := 1 }] }

/-! ### Basic lemmas about handles and the class table -/

theorem getC_some_lt {rc : refcount_t} {h : Nat} {c : refcount_class_t}
    (hc : getC rc h = some c) : h < rc.table.length := by
  by_contra hh
  simp [getC, hh] at hc

theorem getC_of_lt {rc : refcount_t} {h : Nat} (hh : h < rc.table.length) :
    ∃ c, getC rc h = some c := by
  have hidx : rc.table.length - 1 - h < rc.table.length := by omega
  exact ⟨rc.table[rc.table.length - 1 - h], by
    simp [getC, hh, List.getElem?_eq_getElem hidx]⟩

theorem setC_ref (rc : refcount_t) (h : Nat) (c : refcount_class_t) :
    (setC rc h c).ref = rc.ref := rfl

theorem setC_table_length (rc : refcount_t) (h : Nat) (c : refcount_class_t) :
    (setC rc h c).table.length = rc.table.length := by
  simp [setC]

theorem getC_setC_self {rc : refcount_t} {h : Nat} {c : refcount_class_t}
    (hc : getC rc h = some c) (c' : refcount_class_t) :
    getC (setC rc h c') h = some c' := by
  have hh := getC_some_lt hc
  have hidx : rc.table.length - 1 - h < rc.table.length := by omega
  simp [getC, setC, hh, List.getElem?_set_eq_of_lt _ hidx]

theorem getC_setC_ne {rc : refcount_t} {h : Nat} (hh : h < rc.table.length)
    (c' : refcount_class_t) {h' : Nat} (hne : h' ≠ h) :
    getC (setC rc h c') h' = getC rc h' := by
  by_cases hh' : h' < rc.table.length
  · have hne' : rc.table.length - 1 - h ≠ rc.table.length - 1 - h' := by omega
    simp [getC, setC, hh', List.getElem?_set_ne hne']
  · simp [getC, setC, hh']

theorem getC_cons {r r' : Int} {c : refcount_class_t} {t : List refcount_class_t}
    {h : Nat} (hh : h < t.length) :
    getC ⟨r, c :: t⟩ h = getC ⟨r', t⟩ h := by
  have h1 : h < t.length + 1 := by omega
  have h2 : t.length + 1 - 1 - h = (t.length - 1 - h) + 1 := by omega
  simp only [getC, List.length_cons, hh, h1, if_true, h2, List.getElem?_cons_succ]

theorem hlistFind_some {p : refcount_class_t → Bool} :
    ∀ {l : List refcount_class_t} {i : Nat}, hlistFind p l = some i →
      ∃ x, l[i]? = some x ∧ p x = true := by
  intro l
  induction l with
  | nil => intro i hi; simp [hlistFind] at hi
  | cons a as ih =>
    intro i hi
    by_cases ha : p a
    · simp [hlistFind, ha] at hi
      exact ⟨a, by simp [← hi], ha⟩
    · simp [hlistFind, ha] at hi
      obtain ⟨j, hj, hji⟩ := hi
      obtain ⟨x, hx, hpx⟩ := ih hj
      exact ⟨x, by simp [← hji, hx], hpx⟩

theorem hlistFind_none {p : refcount_class_t → Bool} :
    ∀ {l : List refcount_class_t}, hlistFind p l = none →
      ∀ x ∈ l, p x = false := by
  intro l
  induction l with
  | nil => intro _ x hx; cases hx
  | cons a as ih =>
    intro hn x hx
    by_cases ha : p a
    · simp [hlistFind, ha] at hn
    · simp [hlistFind, ha] at hn
      rcases List.mem_cons.mp hx with hx | hx
      · simpa [hx] using ha
      · exact ih hn x hx

/-! ### Lemmas about `strncpy` / `strncmp` -/

theorem strncpy_nil (n : Nat) : strncpy [] n = List.replicate n 0 := by
  simp [strncpy]

theorem strncpy_cons (b : Nat) (bs : List Nat) (n : Nat) :
    strncpy (b :: bs) (n + 1) = b :: strncpy bs n := by
  have hlen : n + 1 - (bs.length + 1) = n - bs.length := by omega
  simp [strncpy, List.take_succ_cons, hlen]

/-- Looking up the key just stored by `strncpy` succeeds: the copy agrees
with the original on every byte `strncmp` examines. -/
theorem strncmp_strncpy_self : ∀ (n : Nat) (k : List Nat), validKey k →
    strncmp (strncpy k n) k n = 0 := by
  intro n
  induction n with
  | zero => intro k _; rfl
  | succ n ih =>
    intro k hk
    cases k with
    | nil =>
      rw [strncpy_nil, List.replicate_succ]
      simp [strncmp]
    | cons b bs =>
      have hb : b ≠ 0 := hk b (List.mem_cons_self b bs)
      rw [strncpy_cons]
      simp only [strncmp, List.headD_cons, List.tail_cons]
      have ihbs := ih bs (fun x hx => hk x (List.mem_cons_of_mem b hx))
      simp [hb, ihbs]

/-- A key of bounded length is recoverable from any buffer it
`strncmp`-matches: two valid keys matching the same buffer agree on the
first `n` bytes. -/
theorem strncmp_eq_zero_inj : ∀ (n : Nat) (buf k1 k2 : List Nat),
    validKey k1 → validKey k2 →
    strncmp buf k1 n = 0 → strncmp buf k2 n = 0 →
    k1.take n = k2.take n := by
  intro n
  induction n with
  | zero => intro buf k1 k2 _ _ _ _; simp
  | succ n ih =>
    intro buf k1 k2 h1 h2 e1 e2
    simp only [strncmp] at e1 e2
    by_cases hz : (buf.headD 0 : Int) = 0
    · have hk1 : k1 = [] := by
        cases k1 with
        | nil => rfl
        | cons a t =>
          exfalso
          have ha : a ≠ 0 := h1 a (List.mem_cons_self a t)
          rw [List.headD_cons] at e1
          by_cases hne : (buf.headD 0 : Int) ≠ ((a : Nat) : Int)
          · rw [if_pos hne] at e1; omega
          · push_neg at hne; omega
      have hk2 : k2 = [] := by
        cases k2 with
        | nil => rfl
        | cons a t =>
          exfalso
          have ha : a ≠ 0 := h2 a (List.mem_cons_self a t)
          rw [List.headD_cons] at e2
          by_cases hne : (buf.headD 0 : Int) ≠ ((a : Nat) : Int)
          · rw [if_pos hne] at e2; omega
          · push_neg at hne; omega
      simp [hk1, hk2]
    · obtain ⟨a1, t1, rfl⟩ : ∃ a t, k1 = a :: t := by
        cases k1 with
        | nil =>
          exfalso
          simp only [List.headD_nil, Nat.cast_zero] at e1
          by_cases hne : (buf.headD 0 : Int) ≠ 0
          · rw [if_pos hne] at e1; omega
          · push_neg at hne; exact hz hne
        | cons a t => exact ⟨a, t, rfl⟩
      obtain ⟨a2, t2, rfl⟩ : ∃ a t, k2 = a :: t := by
        cases k2 with
        | nil =>
          exfalso
          simp only [List.headD_nil, Nat.cast_zero] at e2
          by_cases hne : (buf.headD 0 : Int) ≠ 0
          · rw [if_pos hne] at e2; omega
          · push_neg at hne; exact hz hne
        | cons a t => exact ⟨a, t, rfl⟩
      rw [List.headD_cons] at e1 e2
      have ha1 : (buf.headD 0 : Int) = (a1 : Int) := by
        by_contra hne; rw [if_pos hne] at e1; omega
      have ha2 : (buf.headD 0 : Int) = (a2 : Int) := by
        by_contra hne; rw [if_pos hne] at e2; omega
      rw [if_neg (by omega), if_neg hz, List.tail_cons] at e1
      rw [if_neg (by omega), if_neg hz, List.tail_cons] at e2
      have heads : a1 = a2 := by omega
      have htails := ih buf.tail t1 t2
        (fun x hx => h1 x (List.mem_cons_of_mem a1 hx))
        (fun x hx => h2 x (List.mem_cons_of_mem a2 hx)) e1 e2
      simp [List.take_succ_cons, heads, htails]

/-- `strncmp` against a key only looks at the key's first `n` bytes. -/
theorem strncmp_congr : ∀ (n : Nat) (k1 k2 : List Nat), validKey k1 →
    validKey k2 → k1.take n = k2.take n →
    ∀ buf, strncmp buf k1 n = strncmp buf k2 n := by
  intro n
  induction n with
  | zero => intro _ _ _ _ _ _; rfl
  | succ n ih =>
    intro k1 k2 h1 h2 ht buf
    cases k1 with
    | nil =>
      cases k2 with
      | nil => rfl
      | cons a t => simp [List.take_succ_cons] at ht
    | cons a1 t1 =>
      cases k2 with
      | nil => simp [List.take_succ_cons] at ht
      | cons a2 t2 =>
        simp only [List.take_succ_cons, List.cons.injEq] at ht
        obtain ⟨rfl, htt⟩ := ht
        simp only [strncmp, List.headD_cons, List.tail_cons]
        have := ih t1 t2 (fun x hx => h1 x (List.mem_cons_of_mem a1 hx))
          (fun x hx => h2 x (List.mem_cons_of_mem a1 hx)) htt buf.tail
        simp [this]

/-- `strncpy` only depends on the first `n` bytes of the source. -/
theorem strncpy_congr {n : Nat} {k1 k2 : List Nat}
    (ht : k1.take n = k2.take n) : strncpy k1 n = strncpy k2 n := by
  have hlen : min n k1.length = min n k2.length := by
    have := congrArg List.length ht
    simpa [List.length_take] using this
  have hsub : n - k1.length = n - k2.length := by omega
  simp [strncpy, ht, hsub]

/-! ### Lemmas about `refcount_class_get` -/

theorem class_get_ref (rc : refcount_t) (k : List Nat) :
    (refcount_class_get rc k).1.ref = rc.ref := by
  unfold refcount_class_get
  split <;> rfl

theorem class_get_preserves {rc : refcount_t} {h : Nat}
    (hh : h < rc.table.length) (k : List Nat) :
    getC (refcount_class_get rc k).1 h = getC rc h := by
  obtain ⟨r, t⟩ := rc
  simp only at hh
  unfold refcount_class_get
  split
  · rfl
  · exact getC_cons hh

/-- The handle returned by `refcount_class_get` is valid in the returned
state and its class's key `strncmp`-matches the requested key. -/
theorem class_get_post {k : List Nat} (hk : validKey k) (rc : refcount_t) :
    ∃ c, getC (refcount_class_get rc k).1 (refcount_class_get rc k).2 = some c ∧
      strncmp c.key k REFCOUNT_KEY_MAX = 0 := by
  unfold refcount_class_get
  cases hfind : hlistFind (fun c => strncmp c.key k REFCOUNT_KEY_MAX == 0)
      rc.table with
  | some i =>
    obtain ⟨x, hx, hpx⟩ := hlistFind_some hfind
    have hi : i < rc.table.length := by
      by_contra hni
      rw [List.getElem?_eq_none (by omega)] at hx
      cases hx
    refine ⟨x, ?_, by simpa using hpx⟩
    have hlt : rc.table.length - 1 - i < rc.table.length := by omega
    have hidx : rc.table.length - 1 - (rc.table.length - 1 - i) = i := by omega
    simp [getC, hlt, hidx, hx]
  | none =>
    refine ⟨refcount_class_init k, ?_, strncmp_strncpy_self _ _ hk⟩
    have hlt : rc.table.length < rc.table.length + 1 := by omega
    simp [getC, hlt]

/-- Calling `refcount_class_get` again with the same key returns the same
state and the same class handle. -/
theorem class_get_idem {k : List Nat} (hk : validKey k) (rc : refcount_t) :
    refcount_class_get (refcount_class_get rc k).1 k = refcount_class_get rc k := by
  cases hfind : hlistFind (fun c => strncmp c.key k REFCOUNT_KEY_MAX == 0)
      rc.table with
  | some i =>
    have h1 : refcount_class_get rc k = (rc, rc.table.length - 1 - i) := by
      unfold refcount_class_get; rw [hfind]
    rw [h1]
    exact h1
  | none =>
    have h1 : refcount_class_get rc k =
        ({ rc with table := refcount_class_init k :: rc.table },
          rc.table.length) := by
      unfold refcount_class_get; rw [hfind]
    rw [h1]
    have hp : (strncmp (refcount_class_init k).key k REFCOUNT_KEY_MAX == 0)
        = true := by
      simp [refcount_class_init, strncmp_strncpy_self _ _ hk]
    unfold refcount_class_get
    simp only [hlistFind, hp, if_true, List.length_cons]
    congr 1

/-! ### Case analysis of the counter operations -/

theorem inc_eq {rc : refcount_t} {h : Nat} {c : refcount_class_t}
    (hc : getC rc h = some c) :
    refcount_inc rc h =
      { setC rc h { c with ref := c.ref + 1 } with ref := rc.ref + 1 } := by
  simp [refcount_inc, hc]

theorem add_eq {rc : refcount_t} {h : Nat} {c : refcount_class_t}
    (hc : getC rc h = some c) (n : Int) :
    refcount_add n rc h =
      { setC rc h { c with ref := c.ref + n } with ref := rc.ref + n } := by
  simp [refcount_add, hc]

theorem dec_eq_warn {rc : refcount_t} {h : Nat} {c : refcount_class_t}
    (hc : getC rc h = some c) (hneg : c.ref - 1 < 0) :
    refcount_dec rc h =
      some (setC rc h { c with ref := c.ref - 1 }, some c.key) := by
  simp [refcount_dec, hc, hneg]

theorem dec_eq_bug {rc : refcount_t} {h : Nat} {c : refcount_class_t}
    (hc : getC rc h = some c) (hpos : 0 ≤ c.ref - 1) (hg : rc.ref ≤ 0) :
    refcount_dec rc h = none := by
  simp only [refcount_dec, hc, setC]
  rw [if_neg (by omega), if_pos hg]

theorem dec_eq_ok {rc : refcount_t} {h : Nat} {c : refcount_class_t}
    (hc : getC rc h = some c) (hpos : 0 ≤ c.ref - 1) (hg : 0 < rc.ref) :
    refcount_dec rc h =
      some ({ setC rc h { c with ref := c.ref - 1 } with ref := rc.ref - 1 },
        none) := by
  simp only [refcount_dec, hc]
  rw [if_neg (by omega), if_neg (by simp [setC]; omega)]
  rfl

/-- Complete case analysis of a non-fatal `refcount_dec`. -/
theorem dec_cases {rc st : refcount_t} {h : Nat} {w : Option (List Nat)}
    (hd : refcount_dec rc h = some (st, w)) :
    ∃ c, getC rc h = some c ∧
      ((c.ref - 1 < 0 ∧ st = setC rc h { c with ref := c.ref - 1 } ∧
          w = some c.key) ∨
        (0 ≤ c.ref - 1 ∧ 0 < rc.ref ∧
          st = { setC rc h { c with ref := c.ref - 1 } with ref := rc.ref - 1 } ∧
          w = none)) := by
  cases hget : getC rc h with
  | none => rw [refcount_dec, hget] at hd; cases hd
  | some c =>
    refine ⟨c, rfl, ?_⟩
    by_cases hneg : c.ref - 1 < 0
    · rw [dec_eq_warn hget hneg] at hd
      injection hd with hd
      exact Or.inl ⟨hneg, congrArg Prod.fst hd.symm, congrArg Prod.snd hd.symm⟩
    · by_cases hg : rc.ref ≤ 0
      · rw [dec_eq_bug hget (by omega) hg] at hd; cases hd
      · rw [dec_eq_ok hget (by omega) (by omega)] at hd
        injection hd with hd
        exact Or.inr ⟨by omega, by omega,
          congrArg Prod.fst hd.symm, congrArg Prod.snd hd.symm⟩

/-- The global counter across a non-fatal `refcount_dec`: untouched when
a warning fires, otherwise decremented from a strictly positive value. -/
theorem dec_ref_cases {rc st : refcount_t} {h : Nat} {w : Option (List Nat)}
    (hd : refcount_dec rc h = some (st, w)) :
    (w.isSome = true ∧ st.ref = rc.ref) ∨
      (w = none ∧ 0 < rc.ref ∧ st.ref = rc.ref - 1) := by
  obtain ⟨c, _, hcase | hcase⟩ := dec_cases hd
  · obtain ⟨_, hst, hw⟩ := hcase
    exact Or.inl ⟨by simp [hw], by rw [hst]; rfl⟩
  · obtain ⟨_, hg, hst, hw⟩ := hcase
    exact Or.inr ⟨hw, hg, by rw [hst]⟩

/-- `refcount_dec_and_test` exposes the inner `refcount_dec` result. -/
theorem dat_dec {rc st : refcount_t} {h : Nat} {w : Option (List Nat)}
    {b : Bool} (hd : refcount_dec_and_test rc h = some (st, w, b)) :
    refcount_dec rc h = some (st, w) ∧ b = (refcount_read st == 0) := by
  rw [refcount_dec_and_test] at hd
  cases hdec : refcount_dec rc h with
  | none => rw [hdec] at hd; cases hd
  | some p =>
    obtain ⟨st', w'⟩ := p
    rw [hdec] at hd
    injection hd with hd
    obtain ⟨h1, h2, h3⟩ : st' = st ∧ w' = w ∧ (refcount_read st' == 0) = b := by
      refine ⟨congrArg Prod.fst hd, ?_, ?_⟩
      · have := congrArg Prod.snd hd; exact congrArg Prod.fst this
      · have := congrArg Prod.snd hd; exact congrArg Prod.snd this
    subst h1; subst h2
    exact ⟨rfl, h3.symm⟩

/-! ### Invariant lemmas over operation sequences -/

theorem step_ref_nonneg {rc rc' : refcount_t} {op : Op} {w : Nat}
    (ha : op.addNonneg) (h0 : 0 ≤ rc.ref) (hs : step rc op = some (rc', w)) :
    0 ≤ rc'.ref := by
  cases op with
  | classGet k =>
    simp only [step] at hs
    injection hs with hs
    have h1 := congrArg Prod.fst hs
    simp only at h1
    rw [← h1, class_get_ref]
    exact h0
  | inc h =>
    simp only [step] at hs
    by_cases hh : h < rc.table.length
    · rw [if_pos hh] at hs
      injection hs with hs
      have h1 := congrArg Prod.fst hs
      simp only at h1
      obtain ⟨c, hc⟩ := getC_of_lt hh
      rw [← h1, inc_eq hc]
      show 0 ≤ rc.ref + 1
      omega
    · rw [if_neg hh] at hs; cases hs
  | add n h =>
    simp only [step] at hs
    by_cases hh : h < rc.table.length
    · rw [if_pos hh] at hs
      injection hs with hs
      have h1 := congrArg Prod.fst hs
      simp only at h1
      obtain ⟨c, hc⟩ := getC_of_lt hh
      rw [← h1, add_eq hc]
      show 0 ≤ rc.ref + n
      have hn : 0 ≤ n := ha
      omega
    · rw [if_neg hh] at hs; cases hs
  | dec h =>
    simp only [step] at hs
    cases hdec : refcount_dec rc h with
    | none => rw [hdec] at hs; cases hs
    | some p =>
      rw [hdec] at hs
      obtain ⟨st, wo⟩ := p
      simp only [Option.map_some'] at hs
      injection hs with hs
      have h1 := congrArg Prod.fst hs
      simp only at h1
      rcases dec_ref_cases hdec with ⟨_, he⟩ | ⟨_, hg, he⟩ <;> rw [← h1] <;> omega
  | decTest h =>
    simp only [step] at hs
    cases hdat : refcount_dec_and_test rc h with
    | none => rw [hdat] at hs; cases hs
    | some p =>
      rw [hdat] at hs
      obtain ⟨st, wo, b⟩ := p
      simp only [Option.map_some'] at hs
      injection hs with hs
      have h1 := congrArg Prod.fst hs
      simp only at h1
      obtain ⟨hdec, _⟩ := dat_dec hdat
      rcases dec_ref_cases hdec with ⟨_, he⟩ | ⟨_, hg, he⟩ <;> rw [← h1] <;> omega

theorem run_nonneg : ∀ (ops : List Op) (rc rc' : refcount_t) (w : Nat),
    (∀ op ∈ ops, op.addNonneg) → 0 ≤ rc.ref →
    run rc ops = some (rc', w) → 0 ≤ rc'.ref := by
  intro ops
  induction ops with
  | nil =>
    intro rc rc' w _ h0 hr
    simp only [run] at hr
    injection hr with hr
    have h1 := congrArg Prod.fst hr
    simp only at h1
    rw [← h1]; exact h0
  | cons op ops ih =>
    intro rc rc' w hops h0 hr
    simp only [run] at hr
    cases hs : step rc op with
    | none => rw [hs] at hr; cases hr
    | some p =>
      rw [hs] at hr
      obtain ⟨rc1, w1⟩ := p
      dsimp only at hr
      cases hrun : run rc1 ops with
      | none => rw [hrun] at hr; cases hr
      | some q =>
        rw [hrun] at hr
        obtain ⟨rc2, w2⟩ := q
        injection hr with hr
        have h1 := congrArg Prod.fst hr
        simp only at h1
        have hnn1 : 0 ≤ rc1.ref :=
          step_ref_nonneg (hops op (List.mem_cons_self op ops)) h0 hs
        have := ih rc1 rc2 w2 (fun o ho => hops o (List.mem_cons_of_mem op ho))
          hnn1 hrun
        rw [← h1]; exact this

theorem step_ref_delta {rc rc' : refcount_t} {op : Op}
    (hs : step rc op = some (rc', 0)) : rc'.ref = rc.ref + op.delta := by
  cases op with
  | classGet k =>
    simp only [step] at hs
    injection hs with hs
    have h1 := congrArg Prod.fst hs
    simp only at h1
    rw [← h1, class_get_ref]
    simp [Op.delta]
  | inc h =>
    simp only [step] at hs
    by_cases hh : h < rc.table.length
    · rw [if_pos hh] at hs
      injection hs with hs
      have h1 := congrArg Prod.fst hs
      simp only at h1
      obtain ⟨c, hc⟩ := getC_of_lt hh
      rw [← h1, inc_eq hc]
      rfl
    · rw [if_neg hh] at hs; cases hs
  | add n h =>
    simp only [step] at hs
    by_cases hh : h < rc.table.length
    · rw [if_pos hh] at hs
      injection hs with hs
      have h1 := congrArg Prod.fst hs
      simp only at h1
      obtain ⟨c, hc⟩ := getC_of_lt hh
      rw [← h1, add_eq hc]
      rfl
    · rw [if_neg hh] at hs; cases hs
  | dec h =>
    simp only [step] at hs
    cases hdec : refcount_dec rc h with
    | none => rw [hdec] at hs; cases hs
    | some p =>
      rw [hdec] at hs
      obtain ⟨st, wo⟩ := p
      simp only [Option.map_some'] at hs
      injection hs with hs
      have h1 := congrArg Prod.fst hs
      have h2 := congrArg Prod.snd hs
      simp only at h1 h2
      have hwo : wo = none := by
        cases wo with
        | none => rfl
        | some k => simp at h2
      rcases dec_ref_cases hdec with ⟨hws, _⟩ | ⟨_, _, he⟩
      · rw [hwo] at hws; cases hws
      · rw [← h1, he]
        show rc.ref - 1 = rc.ref + (-1)
        omega
  | decTest h =>
    simp only [step] at hs
    cases hdat : refcount_dec_and_test rc h with
    | none => rw [hdat] at hs; cases hs
    | some p =>
      rw [hdat] at hs
      obtain ⟨st, wo, b⟩ := p
      simp only [Option.map_some'] at hs
      injection hs with hs
      have h1 := congrArg Prod.fst hs
      have h2 := congrArg Prod.snd hs
      simp only at h1 h2
      have hwo : wo = none := by
        cases wo with
        | none => rfl
        | some k => simp at h2
      obtain ⟨hdec, _⟩ := dat_dec hdat
      rcases dec_ref_cases hdec with ⟨hws, _⟩ | ⟨_, _, he⟩
      · rw [hwo] at hws; cases hws
      · rw [← h1, he]
        show rc.ref - 1 = rc.ref + (-1)
        omega

theorem run_ref_delta : ∀ (ops : List Op) (rc rc' : refcount_t),
    run rc ops = some (rc', 0) → rc'.ref = rc.ref + netDelta ops := by
  intro ops
  induction ops with
  | nil =>
    intro rc rc' hr
    simp only [run] at hr
    injection hr with hr
    have h1 := congrArg Prod.fst hr
    simp only at h1
    rw [← h1]
    simp [netDelta]
  | cons op ops ih =>
    intro rc rc' hr
    simp only [run] at hr
    cases hs : step rc op with
    | none => rw [hs] at hr; cases hr
    | some p =>
      rw [hs] at hr
      obtain ⟨rc1, w1⟩ := p
      dsimp only at hr
      cases hrun : run rc1 ops with
      | none => rw [hrun] at hr; cases hr
      | some q =>
        rw [hrun] at hr
        obtain ⟨rc2, w2⟩ := q
        injection hr with hr
        have h1 := congrArg Prod.fst hr
        have h2 := congrArg Prod.snd hr
        simp only at h1 h2
        have hw1 : w1 = 0 := by omega
        have hw2 : w2 = 0 := by omega
        subst hw1; subst hw2
        have hstep := step_ref_delta hs
        have htail := ih rc1 rc2 hrun
        rw [← h1, htail, hstep]
        simp [netDelta]
        ring

/-! ### Frame lemmas: operations touch only their class and the global -/

theorem inc_frame {rc : refcount_t} {h : Nat} {c : refcount_class_t}
    (hc : getC rc h = some c) :
    (refcount_inc rc h).table.length = rc.table.length ∧
    (∀ h', h' ≠ h → getC (refcount_inc rc h) h' = getC rc h') ∧
    getC (refcount_inc rc h) h = some { c with ref := c.ref + 1 } := by
  have hh := getC_some_lt hc
  rw [inc_eq hc]
  refine ⟨by simp [setC], fun h' hne => ?_, getC_setC_self hc _⟩
  exact getC_setC_ne hh _ hne

theorem add_frame {rc : refcount_t} {h : Nat} {c : refcount_class_t}
    (hc : getC rc h = some c) (n : Int) :
    (refcount_add n rc h).table.length = rc.table.length ∧
    (∀ h', h' ≠ h → getC (refcount_add n rc h) h' = getC rc h') ∧
    getC (refcount_add n rc h) h = some { c with ref := c.ref + n } := by
  have hh := getC_some_lt hc
  rw [add_eq hc]
  refine ⟨by simp [setC], fun h' hne => ?_, getC_setC_self hc _⟩
  exact getC_setC_ne hh _ hne

theorem dec_frame {rc st : refcount_t} {h : Nat} {w : Option (List Nat)}
    (hd : refcount_dec rc h = some (st, w)) :
    ∃ c, getC rc h = some c ∧
      st.table.length = rc.table.length ∧
      (∀ h', h' ≠ h → getC st h' = getC rc h') ∧
      getC st h = some { c with ref := c.ref - 1 } := by
  obtain ⟨c, hc, hcase⟩ := dec_cases hd
  have hh := getC_some_lt hc
  refine ⟨c, hc, ?_⟩
  rcases hcase with ⟨_, hst, _⟩ | ⟨_, _, hst, _⟩ <;> subst hst <;>
    exact ⟨by simp [setC], fun h' hne => getC_setC_ne hh _ hne,
      getC_setC_self hc _⟩

/-! ### Claim theorems -/

/-- C1: `refcount_dec` first decrements the class count by 1; if the class
count is then negative it emits exactly one diagnostic naming the class
key (`some c.key`) and leaves the global count unchanged; otherwise it is
fatal (`none`) unless the global count is strictly positive, in which case
it decrements the global count by 1. -/
theorem refcount_dec_spec (rc : refcount_t) (h : Nat) (c : refcount_class_t)
    (hc : getC rc h = some c) :
    (c.ref - 1 < 0 →
      refcount_dec rc h =
        some (setC rc h { c with ref := c.ref - 1 }, some c.key) ∧
      refcount_read (setC rc h { c with ref := c.ref - 1 }) =
        refcount_read rc) ∧
    (0 ≤ c.ref - 1 → rc.ref ≤ 0 → refcount_dec rc h = none) ∧
    (0 ≤ c.ref - 1 → 0 < rc.ref →
      refcount_dec rc h =
        some ({ setC rc h { c with ref := c.ref - 1 } with ref := rc.ref - 1 },
          none)) :=
  ⟨fun hneg => ⟨dec_eq_warn hc hneg, rfl⟩,
   fun hpos hg => dec_eq_bug hc hpos hg,
   fun hpos hg => dec_eq_ok hc hpos hg⟩

/-- Witness for C1: the imbalance branch on `rcZ` (class count 0, global
0): the diagnostic carries the class key and the global count is kept. -/
theorem refcount_dec_spec_witness :
    refcount_dec rcZ 0 = some (setC rcZ 0 { cB with ref := cB.ref - 1 },
      some cB.key) ∧
    refcount_read (setC rcZ 0 { cB with ref := cB.ref - 1 }) =
      refcount_read rcZ :=
  (refcount_dec_spec rcZ 0 cB (by decide)).1 (by decide)

/-- C2: starting from `refcount_get` (global count 0), the invariant
`0 ≤ global_count` is preserved by every sequence of class lookups,
increments, adds with non-negative delta, decrements and
decrement-and-tests that runs without hitting the fatal `BUG_ON`. -/
theorem refcount_global_nonneg (ops : List Op) (rc' : refcount_t) (w : Nat)
    (ha : ∀ op ∈ ops, op.addNonneg)
    (hr : run refcount_get ops = some (rc', w)) :
    0 ≤ refcount_read rc' :=
  run_nonneg ops refcount_get rc' w ha (by decide) hr

/-- Witness for C2 at a concrete five-operation sequence. -/
theorem refcount_global_nonneg_witness :
    run refcount_get opsW = some (rcWend, 0) ∧ 0 ≤ refcount_read rcWend :=
  ⟨by decide, refcount_global_nonneg opsW rcWend 0 (by decide) (by decide)⟩

/-- C3: `refcount_dec_and_test` performs exactly the state change of
`refcount_dec` (same resulting state, same diagnostic, fatal exactly when
`refcount_dec` is) and returns `true` iff the global count is 0
immediately after that internal decrement. -/
theorem refcount_dec_and_test_spec (rc : refcount_t) (h : Nat) :
    (refcount_dec_and_test rc h).map (fun p => (p.1, p.2.1)) =
      refcount_dec rc h ∧
    ∀ st w b, refcount_dec_and_test rc h = some (st, w, b) →
      (b = true ↔ refcount_read st = 0) := by
  constructor
  · rw [refcount_dec_and_test]
    cases refcount_dec rc h with
    | none => rfl
    | some p => obtain ⟨st, w⟩ := p; rfl
  · intro st w b hd
    obtain ⟨_, hb⟩ := dat_dec hd
    rw [hb]
    simp

/-- Witness for C3: on `rcT` the test fires exactly at global count 0. -/
theorem refcount_dec_and_test_spec_witness :
    (true = true) ↔ refcount_read
      ({ ref := 0,
         table := [{ key := strncpy kA REFCOUNT_KEY_MAX, ref := 0 }] } :
        refcount_t) = 0 :=
  (refcount_dec_and_test_spec rcT 0).2
    { ref := 0, table := [{ key := strncpy kA REFCOUNT_KEY_MAX, ref := 0 }] }
    none true (by decide)

/-- C4: over any sequence of increments, decrements and class lookups
started from `refcount_get` that emits no imbalance diagnostic (no class
count ever goes negative), the final global count equals the net sum of
the deltas applied across all classes. -/
theorem net_delta_spec (ops : List Op) (rc' : refcount_t)
    (_hops : ∀ op ∈ ops, op.isIncDecGet = true)
    (hr : run refcount_get ops = some (rc', 0)) :
    refcount_read rc' = netDelta ops := by
  have hrun := run_ref_delta ops refcount_get rc' hr
  simpa [refcount_read, refcount_get] using hrun

/-- Witness for C4 at a two-class sequence with net delta 2. -/
theorem net_delta_spec_witness : refcount_read rcDend = netDelta opsD :=
  net_delta_spec opsD rcDend (by decide) (by decide)

/-- C5: `refcount_class_get` twice with the same key returns the same
state and the same class identity, and with two distinct (bounded, valid)
keys returns two distinct class identities. -/
theorem class_get_identity (rc : refcount_t) (k k1 k2 : List Nat)
    (hk : validKey k) (hk1 : validKey k1) (hk2 : validKey k2)
    (hl1 : k1.length ≤ REFCOUNT_KEY_MAX) (hl2 : k2.length ≤ REFCOUNT_KEY_MAX)
    (hne : k1 ≠ k2) :
    refcount_class_get (refcount_class_get rc k).1 k =
      refcount_class_get rc k ∧
    (refcount_class_get (refcount_class_get rc k1).1 k2).2 ≠
      (refcount_class_get rc k1).2 := by
  refine ⟨class_get_idem hk rc, ?_⟩
  intro heq
  obtain ⟨c1, hc1, hm1⟩ := class_get_post hk1 rc
  obtain ⟨c2, hc2, hm2⟩ := class_get_post hk2 (refcount_class_get rc k1).1
  have hh1 : (refcount_class_get rc k1).2 <
      (refcount_class_get rc k1).1.table.length := getC_some_lt hc1
  have hpres : getC (refcount_class_get (refcount_class_get rc k1).1 k2).1
      (refcount_class_get rc k1).2 =
      getC (refcount_class_get rc k1).1 (refcount_class_get rc k1).2 :=
    class_get_preserves hh1 k2
  rw [heq] at hc2
  rw [hpres, hc1] at hc2
  injection hc2 with hc2
  have hm2' : strncmp c1.key k2 REFCOUNT_KEY_MAX = 0 := by
    rw [hc2]; exact hm2
  have htake := strncmp_eq_zero_inj REFCOUNT_KEY_MAX c1.key k1 k2 hk1 hk2
    hm1 hm2'
  rw [List.take_of_length_le hl1, List.take_of_length_le hl2] at htake
  exact hne htake

/-- Witness for C5: keys `[65]` and `[66]` on a fresh refcount give
distinct class identities. -/
theorem class_get_identity_witness :
    (refcount_class_get (refcount_class_get refcount_get kA).1 kB).2 ≠
      (refcount_class_get refcount_get kA).2 :=
  (class_get_identity refcount_get kA kA kB (by decide) (by decide)
    (by decide) (by decide) (by decide) (by decide)).2

/-- C6: keys are significant only up to `REFCOUNT_KEY_MAX` bytes: two
valid keys agreeing on their first 20 bytes make `refcount_class_get`
behave identically, so they resolve to the same class of a given
refcount. -/
theorem class_get_key_truncation (rc : refcount_t) (k1 k2 : List Nat)
    (hk1 : validKey k1) (hk2 : validKey k2)
    (ht : k1.take REFCOUNT_KEY_MAX = k2.take REFCOUNT_KEY_MAX) :
    refcount_class_get rc k1 = refcount_class_get rc k2 ∧
    refcount_class_get (refcount_class_get rc k1).1 k2 =
      refcount_class_get rc k1 := by
  have hcongr : ∀ rc0 : refcount_t,
      refcount_class_get rc0 k1 = refcount_class_get rc0 k2 := by
    intro rc0
    have hpred : (fun c : refcount_class_t =>
          strncmp c.key k1 REFCOUNT_KEY_MAX == 0) =
        (fun c : refcount_class_t =>
          strncmp c.key k2 REFCOUNT_KEY_MAX == 0) := by
      funext c
      rw [strncmp_congr REFCOUNT_KEY_MAX k1 k2 hk1 hk2 ht c.key]
    have hinit : refcount_class_init k1 = refcount_class_init k2 := by
      simp [refcount_class_init, strncpy_congr ht]
    unfold refcount_class_get
    rw [hpred, hinit]
  refine ⟨hcongr rc, ?_⟩
  rw [← hcongr (refcount_class_get rc k1).1]
  exact class_get_idem hk1 rc

/-- Witness for C6: two distinct 21-byte keys sharing their first 20
bytes alias to the same class. -/
theorem class_get_key_truncation_witness :
    refcount_class_get (refcount_class_get refcount_get kL1).1 kL2 =
      refcount_class_get refcount_get kL1 :=
  (class_get_key_truncation refcount_get kL1 kL2 (by decide) (by decide)
    (by decide)).2

/-- C7: `refcount_inc` raises the class count and the global count by
exactly 1; `refcount_add n` does the same with delta `n` for every
integer `n`; and `refcount_inc` coincides with `refcount_add 1`. -/
theorem inc_add_spec (rc : refcount_t) (h : Nat) (c : refcount_class_t)
    (hc : getC rc h = some c) :
    refcount_read (refcount_inc rc h) = refcount_read rc + 1 ∧
    getC (refcount_inc rc h) h = some { c with ref := c.ref + 1 } ∧
    (∀ n : Int, refcount_read (refcount_add n rc h) = refcount_read rc + n ∧
      getC (refcount_add n rc h) h = some { c with ref := c.ref + n }) ∧
    refcount_inc rc h = refcount_add 1 rc h := by
  refine ⟨?_, ?_, fun n => ⟨?_, ?_⟩, ?_⟩
  · rw [inc_eq hc]; rfl
  · rw [inc_eq hc]; exact getC_setC_self hc _
  · rw [add_eq hc]; rfl
  · rw [add_eq hc]; exact getC_setC_self hc _
  · rw [inc_eq hc, add_eq hc]

/-- Witness for C7: `refcount_inc` and `refcount_add 1` coincide on
`rcW`. -/
theorem inc_add_spec_witness : refcount_inc rcW 0 = refcount_add 1 rcW 0 :=
  (inc_add_spec rcW 0 cA (by decide)).2.2.2

/-- C8: `refcount_get` returns global count 0 and an empty class table;
reading the global count of a fresh refcount gives 0, and looking up any
key on it creates one new class with count 0 living in that refcount
(the `owner` back-reference of the model). -/
theorem create_spec :
    refcount_read refcount_get = 0 ∧
    refcount_get.table = [] ∧
    ∀ k, refcount_class_get refcount_get k =
        ({ ref := 0, table := [refcount_class_init k] }, 0) ∧
      (refcount_class_init k).ref = 0 ∧
      refcount_class_read (refcount_class_get refcount_get k).1
        (refcount_class_get refcount_get k).2 = some 0 :=
  ⟨rfl, rfl, fun _ => ⟨rfl, rfl, rfl⟩⟩

/-- C9: with global count 0 and class count at most 0 before the call,
`refcount_dec_and_test` takes the imbalance branch (diagnostic, global
unchanged at 0) and still returns `true`. -/
theorem imbalanced_dat_at_zero (rc : refcount_t) (h : Nat)
    (c : refcount_class_t) (hc : getC rc h = some c) (hcr : c.ref ≤ 0)
    (hg : refcount_read rc = 0) :
    refcount_dec_and_test rc h =
      some (setC rc h { c with ref := c.ref - 1 }, some c.key, true) := by
  have hneg : c.ref - 1 < 0 := by omega
  have hg' : rc.ref = 0 := hg
  rw [refcount_dec_and_test, dec_eq_warn hc hneg]
  simp [refcount_read, setC, hg']

/-- Witness for C9 on `rcZ` (global 0, class count 0). -/
theorem imbalanced_dat_at_zero_witness :
    refcount_dec_and_test rcZ 0 =
      some (setC rcZ 0 { cB with ref := cB.ref - 1 }, some cB.key, true) :=
  imbalanced_dat_at_zero rcZ 0 cB (by decide) (by decide) (by decide)

/-- C10: frame property: `refcount_inc`, `refcount_add`, `refcount_dec`
and `refcount_dec_and_test` never add or remove classes (the table keeps
its length) and never change any class other than the operated one, whose
key is also kept. -/
theorem frame_spec (rc : refcount_t) (h : Nat) (c : refcount_class_t)
    (hc : getC rc h = some c) :
    ((refcount_inc rc h).table.length = rc.table.length ∧
      (∀ h', h' ≠ h → getC (refcount_inc rc h) h' = getC rc h') ∧
      (getC (refcount_inc rc h) h).map (fun x => x.key) = some c.key) ∧
    (∀ n : Int, (refcount_add n rc h).table.length = rc.table.length ∧
      (∀ h', h' ≠ h → getC (refcount_add n rc h) h' = getC rc h') ∧
      (getC (refcount_add n rc h) h).map (fun x => x.key) = some c.key) ∧
    (∀ st w, refcount_dec rc h = some (st, w) →
      st.table.length = rc.table.length ∧
      (∀ h', h' ≠ h → getC st h' = getC rc h') ∧
      (getC st h).map (fun x => x.key) = some c.key) ∧
    (∀ st w b, refcount_dec_and_test rc h = some (st, w, b) →
      st.table.length = rc.table.length ∧
      (∀ h', h' ≠ h → getC st h' = getC rc h') ∧
      (getC st h).map (fun x => x.key) = some c.key) := by
  refine ⟨?_, ?_, ?_, ?_⟩
  · obtain ⟨hl, ho, hs⟩ := inc_frame hc
    exact ⟨hl, ho, by rw [hs]; rfl⟩
  · intro n
    obtain ⟨hl, ho, hs⟩ := add_frame hc n
    exact ⟨hl, ho, by rw [hs]; rfl⟩
  · intro st w hd
    obtain ⟨c0, hc0, hl, ho, hs⟩ := dec_frame hd
    rw [hc] at hc0
    injection hc0 with hc0
    exact ⟨hl, ho, by rw [hs, ← hc0]; rfl⟩
  · intro st w b hd
    obtain ⟨hdec, _⟩ := dat_dec hd
    obtain ⟨c0, hc0, hl, ho, hs⟩ := dec_frame hdec
    rw [hc] at hc0
    injection hc0 with hc0
    exact ⟨hl, ho, by rw [hs, ← hc0]; rfl⟩

/-- Witness for C10: `refcount_inc` on `rcW` keeps the table size and the
untouched class `cB` at handle 1. -/
theorem frame_spec_witness :
    (refcount_inc rcW 0).table.length = rcW.table.length ∧
    getC (refcount_inc rcW 0) 1 = getC rcW 1 :=
  ⟨(frame_spec rcW 0 cA (by decide)).1.1,
   (frame_spec rcW 0 cA (by decide)).1.2.1 1 (by decide)⟩
